import Mathlib

/-!
Verification of src/mylib/genomic/sequence.py.

Modelling conventions: Python strings are lists of characters, Python lists are
Lean lists, numpy float vectors are lists of rationals, and a Python dict built
by a comprehension is modelled by the lookup function it denotes (later
assignments win).  File parsing (Bio.SeqIO) and the pretrained dna2vec model
are external dependencies; they enter the embedding as explicit parameters
(a list of parsed records, an abstract embedding function).
-/

namespace FastaiGenomic

/-- Python range(0, stop, step) for step at least 1: the multiples of step
below stop, in increasing order. -/
def pyRange (stop step : Nat) : List Nat :=
  (List.range stop).filter (fun i => i % step == 0)

/-- Python slice l[::step] for step at least 1: the elements whose index is a
multiple of step, in order. -/
def pySliceStep {α : Type} (l : List α) (step : Nat) : List α :=
  (l.enum.filter (fun p => p.1 % step == 0)).map (fun p => p.2)

/-- GSTokenizer.tokenizer (sequence.py lines 91-98).  For ngram = 1 the text is
split into single characters and, when skip is positive, sliced with stride 2
when skip = 1 and stride skip otherwise; for any other ngram it takes the
slices t[i:i+ngram] for i in range(0, len(t), ngram+skip) subject to the guard
i + ngram < len(t). -/
def GSTokenizer.tokenizer (ngram skip : Nat) (t : List Char) : List (List Char) :=
  if ngram == 1 then
    let toks := t.map (fun c => [c])
    if 0 < skip then
      (if skip == 1 then pySliceStep toks 2 else pySliceStep toks skip)
    else toks
  else
    ((pyRange t.length (ngram + skip)).filter (fun i => decide (i + ngram < t.length))).map
      (fun i => (t.drop i).take ngram)

/-- The token list described by claim C1, written from its words: the windows
t[i:i+ngram] at starts i = 0, ngram+skip, 2*(ngram+skip), ..., keeping every i
with i + ngram less than or equal to len(t), in increasing order of i. -/
def kmerWindowsIncl (ngram skip : Nat) (t : List Char) : List (List Char) :=
  ((List.range t.length).filter
      (fun i => i % (ngram + skip) == 0 && decide (i + ngram ≤ t.length))).map
    (fun i => (t.drop i).take ngram)

/-- The amended token list: identical to `kmerWindowsIncl` except that only
starts i with i + ngram strictly below len(t) are kept, so the window ending
exactly at the end of the text is dropped. -/
def kmerWindowsStrict (ngram skip : Nat) (t : List Char) : List (List Char) :=
  ((List.range t.length).filter
      (fun i => i % (ngram + skip) == 0 && decide (i + ngram < t.length))).map
    (fun i => (t.drop i).take ngram)

/-- The token list described by claim C4, written from its words: for ngram = 1
and skip s, the single characters of t at indices 0, s+1, 2*(s+1), .... -/
def singleCharSkip (skip : Nat) (t : List Char) : List (List Char) :=
  pySliceStep (t.map (fun c => [c])) (skip + 1)

/-- C1, counterexample: on the text AT with ngram 2 and skip 0 the tokenizer
returns no token, while the claimed window list keeps the window AT whose end
coincides with the end of the text. -/
theorem tokenizer_c1_counterexample :
    GSTokenizer.tokenizer 2 0 ['A', 'T'] ≠ kmerWindowsIncl 2 0 ['A', 'T'] := by
  decide

/-- C1 (amended): for ngram at least 2, the tokenizer returns exactly the
windows t[i:i+ngram] at starts i = 0, ngram+skip, 2*(ngram+skip), ... with
i + ngram strictly less than len(t), in increasing order of i, and every
returned token has length exactly ngram. -/
theorem tokenizer_kmer_windows (ngram skip : Nat) (t : List Char) (h : 2 ≤ ngram) :
    GSTokenizer.tokenizer ngram skip t = kmerWindowsStrict ngram skip t ∧
    ∀ tok ∈ GSTokenizer.tokenizer ngram skip t, tok.length = ngram := by
  have hne : (ngram == 1) = false := by
    simp only [beq_eq_false_iff_ne, ne_eq]
    omega
  constructor
  · simp only [GSTokenizer.tokenizer, hne, Bool.false_eq_true, if_false,
      kmerWindowsStrict, pyRange, List.filter_filter, Bool.and_comm]
  · intro tok htok
    simp only [GSTokenizer.tokenizer, hne, Bool.false_eq_true, if_false,
      List.mem_map, List.mem_filter, pyRange] at htok
    obtain ⟨i, ⟨-, hi⟩, rfl⟩ := htok
    have hi' : i + ngram < t.length := of_decide_eq_true hi
    simp only [List.length_take, List.length_drop]
    omega

/-- Witness for `tokenizer_kmer_windows` at ngram 2, skip 1, text ATGCA. -/
theorem tokenizer_kmer_windows_witness :
    GSTokenizer.tokenizer 2 1 ['A', 'T', 'G', 'C', 'A'] =
        kmerWindowsStrict 2 1 ['A', 'T', 'G', 'C', 'A'] ∧
    ∀ tok ∈ GSTokenizer.tokenizer 2 1 ['A', 'T', 'G', 'C', 'A'], tok.length = 2 :=
  tokenizer_kmer_windows 2 1 ['A', 'T', 'G', 'C', 'A'] (by decide)

/-- C4: with ngram 1 the code special-cases skip = 1 to the stride-2 slice
toks[::2], matching the claimed indices 0, 2, 4, ..., but for skip = 2 it
takes toks[::2] as well (stride skip, not skip+1), so on ABCDE it returns the
characters A, C, E where the claim requires A, D: one character is skipped
between consecutive tokens instead of two. -/
theorem tokenizer_c4_skip_bug :
    GSTokenizer.tokenizer 1 1 ['A', 'B', 'C', 'D', 'E'] =
        singleCharSkip 1 ['A', 'B', 'C', 'D', 'E'] ∧
    GSTokenizer.tokenizer 1 2 ['A', 'B', 'C', 'D', 'E'] = [['A'], ['C'], ['E']] ∧
    singleCharSkip 2 ['A', 'B', 'C', 'D', 'E'] = [['A'], ['D']] := by
  decide

/-- GSTokenizer._process_all_1 (sequence.py lines 100-102): tokenize each text
of a list in one process.  GSTokenizer.process_all (lines 104-108) reduces to
it whenever n_cpus is at most 1, which is the case claim C5 is about. -/
def GSTokenizer.process_all_1 (ngram skip : Nat) (texts : List (List Char)) :
    List (List (List Char)) :=
  texts.map (fun t => GSTokenizer.tokenizer ngram skip t)

/-- GSTokenizeProcessor.process (sequence.py lines 122-126): the loop
`for i in range(0, len(ds), chunksize): tokens += process_all(items[i:i+chunksize])`
with a single-process tokenizer. -/
def GSTokenizeProcessor.process (ngram skip chunksize : Nat) (items : List (List Char)) :
    List (List (List Char)) :=
  ((pyRange items.length chunksize).map
    (fun i => GSTokenizer.process_all_1 ngram skip ((items.drop i).take chunksize))).flatten

lemma pyRange_succ (n c : Nat) :
    pyRange (n + 1) c = pyRange n c ++ (if n % c == 0 then [n] else []) := by
  simp only [pyRange, List.range_succ, List.filter_append, List.filter_cons,
    List.filter_nil, List.append_nil]

lemma pyRange_cons (n c : Nat) (hn : 1 ≤ n) (hc : 1 ≤ c) :
    pyRange n c = 0 :: ((pyRange (n - c) c).map (fun i => i + c)) := by
  induction n with
  | zero => omega
  | succ n ih =>
    rcases Nat.eq_zero_or_pos n with hn0 | hn1
    · subst hn0
      have h1c : 1 - c = 0 := by omega
      have hr : List.range 1 = [0] := rfl
      simp [pyRange, h1c, hr, Nat.zero_mod]
    · rw [pyRange_succ, ih hn1]
      rcases le_or_lt c n with hcn | hnc
      · have hsub : n + 1 - c = (n - c) + 1 := by omega
        have hmod : (n - c) % c = n % c := by
          conv_rhs => rw [show n = n - c + c by omega]
          rw [Nat.add_mod_right]
        rw [hsub, pyRange_succ, hmod, List.map_append]
        rcases h : (n % c == 0) with _ | _
        · simp
        · have : n - c + c = n := by omega
          simp [this]
      · have h1 : n + 1 - c = 0 := by omega
        have h2 : n - c = 0 := by omega
        have h3 : (n % c == 0) = false := by
          simp only [beq_eq_false_iff_ne, ne_eq]
          rw [Nat.mod_eq_of_lt hnc]
          omega
        simp [h1, h2, h3, pyRange]

lemma chunked_map_join {α β : Type} (f : α → β) (c : Nat) (hc : 1 ≤ c) :
    ∀ (n : Nat) (L : List α), L.length ≤ n →
      ((pyRange L.length c).map (fun i => ((L.drop i).take c).map f)).flatten = L.map f := by
  intro n
  induction n with
  | zero =>
    intro L hL
    have : L = [] := List.eq_nil_of_length_eq_zero (by omega)
    subst this
    simp [pyRange]
  | succ n ih =>
    intro L hL
    rcases L with _ | ⟨x, xs⟩
    · simp [pyRange]
    · have hlen : 1 ≤ (x :: xs).length := by simp
      rw [pyRange_cons _ c hlen hc, List.map_cons, List.map_map, List.flatten_cons,
        List.drop_zero]
      have hdrop : ∀ i : Nat,
          (x :: xs).drop (i + c) = ((x :: xs).drop c).drop i := by
        intro i
        rw [List.drop_drop, Nat.add_comm]
      have hrw : ((fun i => (((x :: xs).drop i).take c).map f) ∘ fun i => i + c) =
          fun i => ((((x :: xs).drop c).drop i).take c).map f := by
        funext i
        simp only [Function.comp_apply, hdrop i]
      rw [hrw]
      have hlen2 : ((x :: xs).drop c).length = (x :: xs).length - c := by
        simp [List.length_drop]
      have hle : ((x :: xs).drop c).length ≤ n := by
        rw [hlen2]
        simp only [List.length_cons] at hL ⊢
        omega
      have := ih ((x :: xs).drop c) hle
      rw [hlen2] at this
      rw [this, ← List.map_append, List.take_append_drop]

/-- C5: with a single-process tokenizer, processing in chunks of any positive
size equals mapping the tokenizer over all items in order; in particular the
result does not depend on the chunk size. -/
theorem gstokenize_process_chunks (ngram skip chunksize : Nat) (items : List (List Char))
    (h : 1 ≤ chunksize) :
    GSTokenizeProcessor.process ngram skip chunksize items =
      items.map (fun t => GSTokenizer.tokenizer ngram skip t) := by
  unfold GSTokenizeProcessor.process GSTokenizer.process_all_1
  exact chunked_map_join _ chunksize h items.length items le_rfl

/-- Witness for `gstokenize_process_chunks` with chunk size 2 on three items. -/
theorem gstokenize_process_chunks_witness :
    GSTokenizeProcessor.process 2 0 2 [['A', 'T', 'G'], ['C', 'A'], ['T', 'T', 'A', 'C']] =
      [['A', 'T', 'G'], ['C', 'A'], ['T', 'T', 'A', 'C']].map
        (fun t => GSTokenizer.tokenizer 2 0 t) :=
  gstokenize_process_chunks 2 0 2 [['A', 'T', 'G'], ['C', 'A'], ['T', 'T', 'A', 'C']]
    (by decide)

/-- The distinct elements of a list in order of first occurrence: the key
order of a Python Counter or dict built by iterating the list. -/
def firstDedup : List String → List String
  | [] => []
  | x :: xs => x :: firstDedup (xs.filter (fun y => y != x))
termination_by l => l.length
decreasing_by
  simp only [List.length_cons]
  exact Nat.lt_succ_of_le (List.length_filter_le _ _)

/-- Python Counter(elems).items(): each distinct element paired with its number
of occurrences, in first-occurrence order. -/
def counterItems (elems : List String) : List (String × Nat) :=
  (firstDedup elems).map (fun x => (x, elems.count x))

/-- Python Counter(elems).most_common(n): the count pairs sorted by count in
non-increasing order (stably, as Python does), truncated to the first n. -/
def mostCommon (elems : List String) (n : Nat) : List (String × Nat) :=
  ((counterItems elems).mergeSort (fun a b => decide (b.2 ≤ a.2))).take n

/-- GSVocab.create (sequence.py lines 133-138): keep from the most common
max_vocab token types those with count at least min_freq, then put the token
pad in front. -/
def GSVocab.create (tokens : List (List String)) (max_vocab min_freq : Nat) : List String :=
  "pad" :: ((mostCommon tokens.flatten max_vocab).filter
    (fun p => decide (min_freq ≤ p.2))).map (fun p => p.1)

/-- GSVocab.__init__ (sequence.py lines 129-131): stoi is the defaultdict built
from the comprehension over enumerate(itos); a later index overwrites an
earlier one and a missing token defaults to 0. -/
def GSVocab.stoi (itos : List String) (t : String) : Nat :=
  match itos.enum.reverse.find? (fun p => p.2 == t) with
  | some p => p.1
  | none => 0

lemma mem_firstDedup : ∀ (l : List String) (a : String), a ∈ firstDedup l ↔ a ∈ l := by
  intro l
  induction l using firstDedup.induct with
  | case1 => intro a; simp [firstDedup]
  | case2 x xs ih =>
    intro a
    rw [firstDedup]
    simp only [List.mem_cons, ih, List.mem_filter, bne_iff_ne, ne_eq]
    constructor
    · rintro (rfl | ⟨h1, -⟩)
      · exact Or.inl rfl
      · exact Or.inr h1
    · rintro (rfl | h1)
      · exact Or.inl rfl
      · by_cases hax : a = x
        · exact Or.inl hax
        · exact Or.inr ⟨h1, hax⟩

lemma nodup_firstDedup : ∀ (l : List String), (firstDedup l).Nodup := by
  intro l
  induction l using firstDedup.induct with
  | case1 => simp [firstDedup]
  | case2 x xs ih =>
    rw [firstDedup]
    refine List.nodup_cons.mpr ⟨?_, ih⟩
    rw [mem_firstDedup]
    simp

lemma find?_eq_of_mem_of_unique {α : Type} (p : α → Bool) :
    ∀ (l : List α) (a : α), a ∈ l → p a = true → (∀ b ∈ l, p b = true → b = a) →
      l.find? p = some a := by
  intro l
  induction l with
  | nil => intro a ha; cases ha
  | cons x xs ih =>
    intro a ha hpa uniq
    by_cases hx : p x = true
    · rw [List.find?_cons_of_pos _ hx, uniq x (List.mem_cons_self x xs) hx]
    · rw [List.find?_cons_of_neg _ hx]
      have hax : a ∈ xs := by
        rcases List.mem_cons.mp ha with h1 | h1
        · exact absurd (h1 ▸ hpa) hx
        · exact h1
      exact ih a hax hpa (fun b hb hpb => uniq b (List.mem_cons_of_mem _ hb) hpb)

/-- C2: GSVocab.create puts pad at index 0, keeps at most max_vocab token
types after it, each occurring at least min_freq times in the flattened token
lists, in non-increasing order of occurrence count and without repetition; in
particular the length is at most max_vocab + 1. -/
theorem gsvocab_create_freq_threshold (tokens : List (List String)) (max_vocab min_freq : Nat) :
    (GSVocab.create tokens max_vocab min_freq).head? = some "pad" ∧
    (GSVocab.create tokens max_vocab min_freq).length ≤ max_vocab + 1 ∧
    (∀ t ∈ (GSVocab.create tokens max_vocab min_freq).tail,
        min_freq ≤ tokens.flatten.count t) ∧
    (GSVocab.create tokens max_vocab min_freq).tail.Sorted
      (fun a b => tokens.flatten.count b ≤ tokens.flatten.count a) ∧
    (GSVocab.create tokens max_vocab min_freq).tail.Nodup := by
  set elems := tokens.flatten with helems
  set srt := (counterItems elems).mergeSort (fun a b => decide (b.2 ≤ a.2)) with hsrt
  have hperm : srt.Perm (counterItems elems) := List.mergeSort_perm _ _
  have hcount : ∀ p ∈ srt, p.2 = elems.count p.1 := by
    intro p hp
    have hp' : p ∈ counterItems elems := hperm.subset hp
    simp only [counterItems, List.mem_map] at hp'
    obtain ⟨x, -, rfl⟩ := hp'
    rfl
  have htail : (GSVocab.create tokens max_vocab min_freq).tail =
      ((srt.take max_vocab).filter (fun p => decide (min_freq ≤ p.2))).map
        (fun p => p.1) := rfl
  refine ⟨rfl, ?_, ?_, ?_, ?_⟩
  · have h1 : (GSVocab.create tokens max_vocab min_freq).length =
        (((srt.take max_vocab).filter (fun p => decide (min_freq ≤ p.2))).map
          (fun p => p.1)).length + 1 := by
      rw [← htail]
      simp [GSVocab.create]
    rw [h1, List.length_map]
    have h2 : ((srt.take max_vocab).filter (fun p => decide (min_freq ≤ p.2))).length ≤
        (srt.take max_vocab).length := List.length_filter_le _ _
    have h3 : (srt.take max_vocab).length ≤ max_vocab := by
      rw [List.length_take]
      exact min_le_left _ _
    omega
  · intro t ht
    rw [htail] at ht
    simp only [List.mem_map, List.mem_filter] at ht
    obtain ⟨p, ⟨hpTake, hpq⟩, rfl⟩ := ht
    have hpsrt : p ∈ srt := List.mem_of_mem_take hpTake
    have hc := hcount p hpsrt
    rw [← hc]
    exact of_decide_eq_true hpq
  · have hsorted : srt.Pairwise (fun a b => decide (b.2 ≤ a.2) = true) := by
      refine List.sorted_mergeSort ?_ ?_ (counterItems elems)
      · intro a b c hab hbc
        exact decide_eq_true (le_trans (of_decide_eq_true hbc) (of_decide_eq_true hab))
      · intro a b
        rcases Nat.le_total a.2 b.2 with h | h <;> simp [h]
    have h1 : (srt.take max_vocab).Pairwise (fun a b => decide (b.2 ≤ a.2) = true) :=
      List.Pairwise.sublist (List.take_sublist _ _) hsorted
    have h2 := List.Pairwise.filter (fun p => decide (min_freq ≤ p.2)) h1
    have h4 : ((srt.take max_vocab).filter (fun p => decide (min_freq ≤ p.2))).Pairwise
        (fun a b => elems.count b.1 ≤ elems.count a.1) := by
      refine List.Pairwise.imp_of_mem ?_ h2
      intro a b ha hb hab
      have ha' : a ∈ srt := List.mem_of_mem_take (List.mem_of_mem_filter ha)
      have hb' : b ∈ srt := List.mem_of_mem_take (List.mem_of_mem_filter hb)
      have hle : b.2 ≤ a.2 := of_decide_eq_true hab
      rw [hcount a ha', hcount b hb'] at hle
      exact hle
    rw [htail]
    exact List.Pairwise.map _ (fun a b hab => hab) h4
  · have hfstTotal : (srt.map (fun p => p.1)).Nodup := by
      have hp2 : (counterItems elems).map (fun p => p.1) = firstDedup elems := by
        simp [counterItems, List.map_map, Function.comp_def]
      have hpermf : ((counterItems elems).map (fun p => p.1)).Perm
          (srt.map (fun p => p.1)) := (hperm.map _).symm
      exact hpermf.nodup (hp2 ▸ nodup_firstDedup elems)
    have hsub : ((((srt.take max_vocab).filter (fun p => decide (min_freq ≤ p.2))).map
        (fun p => p.1))).Sublist (srt.map (fun p => p.1)) :=
      List.Sublist.map _ ((List.filter_sublist _).trans (List.take_sublist _ _))
    rw [htail]
    exact List.Nodup.sublist hsub hfstTotal

/-- C8: for pairwise-distinct itos, index-to-token followed by token-to-index
is the identity: stoi maps the token at index k back to k. -/
theorem gsvocab_stoi_itos_inverse (itos : List String) (hnd : itos.Nodup)
    (k : Nat) (hk : k < itos.length) :
    GSVocab.stoi itos itos[k] = k := by
  have hmem : ((k, itos[k]) : Nat × String) ∈ itos.enum.reverse := by
    rw [List.mem_reverse, List.mk_mem_enum_iff_getElem?]
    exact List.getElem?_eq_getElem hk
  have huniq : ∀ b ∈ itos.enum.reverse, (fun p => p.2 == itos[k]) b = true →
      b = (k, itos[k]) := by
    intro b hb hpb
    rw [List.mem_reverse, List.mem_enum_iff_getElem?] at hb
    obtain ⟨hb1, hb2⟩ := List.getElem?_eq_some.mp hb
    have heq : b.2 = itos[k] := by simpa using hpb
    rw [heq] at hb2
    have hidx : b.1 = k := (List.Nodup.getElem_inj_iff hnd).mp hb2
    rw [show b = (b.1, b.2) from rfl, hidx, heq]
  unfold GSVocab.stoi
  rw [find?_eq_of_mem_of_unique _ _ _ hmem (by simp) huniq]

/-- Witness for `gsvocab_stoi_itos_inverse` on the vocabulary pad, AA, AT at
index 2. -/
theorem gsvocab_stoi_itos_inverse_witness :
    GSVocab.stoi ["pad", "AA", "AT"] (["pad", "AA", "AT"][2]) = 2 :=
  gsvocab_stoi_itos_inverse ["pad", "AA", "AT"] (by decide) 2 (by decide)

lemma gsvocab_stoi_oov (itos : List String) (t : String) (h : t ∉ itos) :
    GSVocab.stoi itos t = 0 := by
  have hnone : itos.enum.reverse.find? (fun p => p.2 == t) = none := by
    rw [List.find?_eq_none]
    intro b hb
    rw [List.mem_reverse, List.mem_enum_iff_getElem?] at hb
    obtain ⟨hb1, hb2⟩ := List.getElem?_eq_some.mp hb
    simp only [beq_iff_eq]
    intro hbt
    apply h
    rw [← hbt, ← hb2]
    exact List.getElem_mem hb1
  unfold GSVocab.stoi
  rw [hnone]

/-- C9: a token absent from itos is sent by the defaultdict stoi to 0, and
the vocabulary built by GSVocab.create carries pad at index 0, so
out-of-vocabulary tokens numericalize to the padding index. -/
theorem gsvocab_stoi_default_is_pad (tokens : List (List String))
    (max_vocab min_freq : Nat) (t : String)
    (h : t ∉ GSVocab.create tokens max_vocab min_freq) :
    GSVocab.stoi (GSVocab.create tokens max_vocab min_freq) t = 0 ∧
    (GSVocab.create tokens max_vocab min_freq)[0]? = some "pad" :=
  ⟨gsvocab_stoi_oov _ t h, by simp [GSVocab.create]⟩

/-- Witness for `gsvocab_stoi_default_is_pad`: the token ZZ is absent from the
vocabulary built from the single list [AA], and numericalizes to 0. -/
theorem gsvocab_stoi_default_is_pad_witness :
    GSVocab.stoi (GSVocab.create [["AA"]] 5 1) "ZZ" = 0 ∧
    (GSVocab.create [["AA"]] 5 1)[0]? = some "pad" :=
  gsvocab_stoi_default_is_pad [["AA"]] 5 1 "ZZ" (by
    simp [GSVocab.create, mostCommon, counterItems, firstDedup, List.mergeSort])

/-- Python set(x) == set(y) on strings viewed as lists of characters. -/
def pySetEq (x y : List Char) : Bool :=
  x.all (fun c => y.contains c) && y.all (fun c => x.contains c)

/-- The four DNA bases, in the order of the literal ATGC in sequence.py. -/
def atgc : List Char := ['A', 'T', 'G', 'C']

/-- Result of embedding one item: the raw array of vectors when agg is None,
an aggregated vector otherwise. -/
inductive EmbResult : Type where
  | raw : List (List ℚ) → EmbResult
  | agg : List ℚ → EmbResult
deriving DecidableEq

/-- The 100-dimensional zero vector [0.]*100. -/
def zeroVec : List ℚ := List.replicate 100 0

/-- Dna2VecProcessor.process (sequence.py lines 165-171): for each item keep
the tokens x with set(x) == set('ATGC'), look their vectors up in the
pretrained model (passed here as the abstract function embed, standing for
self.embedding.data[ds.ngram].model), fall back to two all-zero
100-dimensional vectors when no token survives, and apply self.agg unless agg
is None. -/
def Dna2VecProcessor.process (embed : List Char → List ℚ)
    (agg : Option (List (List ℚ) → List ℚ)) (items : List (List (List Char))) :
    List EmbResult :=
  items.map (fun item =>
    let bases := item.filter (fun x => pySetEq x atgc)
    let vectors := if 0 < bases.length then bases.map embed else [zeroVec, zeroVec]
    match agg with
    | none => EmbResult.raw vectors
    | some f => EmbResult.agg (f vectors))

/-- The behaviour described by claim C3, written from its words: the tokens
kept are exactly those composed only of the bases A, T, G and C. -/
def claimDna2VecProcess (embed : List Char → List ℚ)
    (agg : Option (List (List ℚ) → List ℚ)) (items : List (List (List Char))) :
    List EmbResult :=
  items.map (fun item =>
    let bases := item.filter (fun x => x.all (fun c => atgc.contains c))
    let vectors := if 0 < bases.length then bases.map embed else [zeroVec, zeroVec]
    match agg with
    | none => EmbResult.raw vectors
    | some f => EmbResult.agg (f vectors))

/-- The amended behaviour: the tokens kept are exactly those whose character
set equals {A, T, G, C}, i.e. tokens that contain each of the four bases and
no other character. -/
def claimDna2VecProcessExact (embed : List Char → List ℚ)
    (agg : Option (List (List ℚ) → List ℚ)) (items : List (List (List Char))) :
    List EmbResult :=
  items.map (fun item =>
    let bases := item.filter
      (fun x => decide ((∀ c ∈ x, c ∈ atgc) ∧ ∀ c ∈ atgc, c ∈ x))
    let vectors := if bases = [] then [zeroVec, zeroVec] else bases.map embed
    match agg with
    | none => EmbResult.raw vectors
    | some f => EmbResult.agg (f vectors))

/-- C3, counterexample: on the single item [AAA], a token composed only of the
base A, the code discards the token (its character set is {A}, not
{A, T, G, C}) and falls back to the zero vectors, while the claimed behaviour
embeds it. -/
theorem dna2vec_c3_counterexample :
    Dna2VecProcessor.process (fun _ => [1]) none [[['A', 'A', 'A']]] ≠
      claimDna2VecProcess (fun _ => [1]) none [[['A', 'A', 'A']]] := by
  decide

/-- C3 (amended): Dna2VecProcessor.process replaces each item by the
aggregation (by agg, or the raw vector array when agg is None) of the
embedding vectors of exactly those of its tokens whose character set equals
{A, T, G, C}; an item with no such token is replaced by the aggregation of two
all-zero 100-dimensional vectors. -/
theorem dna2vec_process_exact_set (embed : List Char → List ℚ)
    (agg : Option (List (List ℚ) → List ℚ)) (items : List (List (List Char))) :
    Dna2VecProcessor.process embed agg items = claimDna2VecProcessExact embed agg items := by
  unfold Dna2VecProcessor.process claimDna2VecProcessExact
  refine List.map_congr_left ?_
  intro item _
  have hfilter : item.filter (fun x => pySetEq x atgc) =
      item.filter (fun x => decide ((∀ c ∈ x, c ∈ atgc) ∧ ∀ c ∈ atgc, c ∈ x)) := by
    refine List.filter_congr ?_
    intro x _
    simp only [pySetEq, List.contains, List.elem_eq_mem]
    rw [Bool.eq_iff_iff]
    simp [List.all_eq_true]
  rw [hfilter]
  rcases hb : item.filter
      (fun x => decide ((∀ c ∈ x, c ∈ atgc) ∧ ∀ c ∈ atgc, c ∈ x)) with _ | ⟨y, ys⟩
  · simp
  · simp

/-- A parsed sequence record, as far as the claims need it: the id and the
sequence of a Bio.SeqRecord.  gen_seq_reader returns a dict of such records
keyed by id; iterating it visits the records in order. -/
structure SeqRec where
  id : String
  seq : String
deriving DecidableEq

/-- GSFileProcessor.process_one (sequence.py lines 68-73) on the parsed
content of the file named by the item: scan the records and return the
sequence of the first one whose id equals item['id'], or None when no record
matches. -/
def GSFileProcessor.process_one (content : List SeqRec) (itemId : String) : Option String :=
  (content.find? (fun r => r.id == itemId)).map (fun r => r.seq)

/-- C6: whenever the file contains a record whose id equals item['id'],
GSFileProcessor.process_one returns the sequence of such a record. -/
theorem gsfile_process_one_finds (content : List SeqRec) (itemId : String)
    (h : ∃ r ∈ content, r.id = itemId) :
    ∃ r ∈ content, r.id = itemId ∧
      GSFileProcessor.process_one content itemId = some r.seq := by
  have hs : (content.find? (fun r => r.id == itemId)).isSome := by
    rw [List.find?_isSome]
    obtain ⟨r, hr, hid⟩ := h
    exact ⟨r, hr, by simp [hid]⟩
  obtain ⟨r0, hr0⟩ := Option.isSome_iff_exists.mp hs
  have hmem : r0 ∈ content := List.mem_of_find?_eq_some hr0
  have hid : r0.id = itemId := by
    have hp := List.find?_some hr0
    simpa using hp
  exact ⟨r0, hmem, hid, by simp [GSFileProcessor.process_one, hr0]⟩

/-- Witness for `gsfile_process_one_finds` on a one-record file. -/
theorem gsfile_process_one_finds_witness :
    ∃ r ∈ [SeqRec.mk "id1" "ATGC"], r.id = "id1" ∧
      GSFileProcessor.process_one [SeqRec.mk "id1" "ATGC"] "id1" = some r.seq :=
  gsfile_process_one_finds [SeqRec.mk "id1" "ATGC"] "id1"
    ⟨SeqRec.mk "id1" "ATGC", by simp, rfl⟩

/-- The dict gen_seq_formats (sequence.py lines 14-15) as an association
list. -/
def gen_seq_formats : List (String × String) :=
  [("fasta", "fasta"), ("fna", "fasta"), ("ffn", "fasta"), ("faa", "fasta"),
   ("frn", "fasta"), ("fastq", "fastq")]

/-- Python dict lookup d[k]: the stored value, or a KeyError (None here) when
the key is absent. -/
def dictGet (d : List (String × String)) (k : String) : Option String :=
  (d.find? (fun p => p.1 == k)).map (fun p => p.2)

/-- str(fn).split(".")[-1]: the text after the last dot of fn, or all of fn
when it contains no dot. -/
def fileExt (fn : String) : String := (fn.splitOn ".").getLastD ""

/-- gen_seq_reader (sequence.py lines 49-52), with SeqIO parsing abstracted as
the parameter parse: look the final extension up in gen_seq_formats and hand
the file name and format to the parser.  The dict lookup happens while the
arguments of SeqIO.parse are evaluated, so a missing key raises KeyError
before any parsing occurs; accordingly the error branch ignores parse. -/
def gen_seq_reader {α : Type} (parse : String → String → α) (fn : String) :
    Except String α :=
  match dictGet gen_seq_formats (fileExt fn) with
  | some fmt => Except.ok (parse fn fmt)
  | none => Except.error "KeyError"

/-- The extension dispatch described by claim C7, written from its words. -/
def claimFormat (ext : String) : Option String :=
  if ext ∈ ["fasta", "fna", "ffn", "faa", "frn"] then some "fasta"
  else if ext = "fastq" then some "fastq"
  else none

/-- C7: gen_seq_reader parses with format fasta for the five fasta extensions,
with format fastq for fastq, and fails with a key-lookup error for every other
final extension, without invoking the parser (the result in that case is the
same for every parse function). -/
theorem gen_seq_reader_dispatch {α : Type} (parse : String → String → α) (fn : String) :
    gen_seq_reader parse fn = match claimFormat (fileExt fn) with
      | some fmt => Except.ok (parse fn fmt)
      | none => Except.error "KeyError" := by
  have hdict : ∀ e : String, dictGet gen_seq_formats e = claimFormat e := by
    intro e
    by_cases h1 : e = "fasta"
    · subst h1; decide
    by_cases h2 : e = "fna"
    · subst h2; decide
    by_cases h3 : e = "ffn"
    · subst h3; decide
    by_cases h4 : e = "faa"
    · subst h4; decide
    by_cases h5 : e = "frn"
    · subst h5; decide
    by_cases h6 : e = "fastq"
    · subst h6; decide
    have g1 : ("fasta" == e) = false := beq_false_of_ne (fun hh => h1 hh.symm)
    have g2 : ("fna" == e) = false := beq_false_of_ne (fun hh => h2 hh.symm)
    have g3 : ("ffn" == e) = false := beq_false_of_ne (fun hh => h3 hh.symm)
    have g4 : ("faa" == e) = false := beq_false_of_ne (fun hh => h4 hh.symm)
    have g5 : ("frn" == e) = false := beq_false_of_ne (fun hh => h5 hh.symm)
    have g6 : ("fastq" == e) = false := beq_false_of_ne (fun hh => h6 hh.symm)
    simp [dictGet, gen_seq_formats, List.find?, g1, g2, g3, g4, g5, g6,
      claimFormat, h1, h2, h3, h4, h5, h6]
  unfold gen_seq_reader
  rw [hdict (fileExt fn)]

/-- A Python exception, as far as claim C10 needs one. -/
inductive PyExc : Type where
  | nameError : String → PyExc
  | attributeError : String → PyExc
deriving DecidableEq

/-- A Python object, reduced to what attribute access needs: the names of the
attributes it exposes. -/
structure PyObject where
  attrs : List String

/-- Python attribute access o.a: succeeds when the attribute exists and raises
AttributeError otherwise. -/
def pyGetAttr (o : PyObject) (a : String) : Except PyExc Unit :=
  if a ∈ o.attrs then Except.ok () else Except.error (PyExc.attributeError a)

/-- The function fastai.layers.embedding of fastai v1 (layers.py defines
`def embedding(ni, nf)` and exports it).  `from fastai.text import *` at the
top of sequence.py re-exports it through fastai/text/__init__.py
(`from ..basics import *`) and fastai/basics.py (`from .layers import *`), the
same chain that supplies PreProcessor, DataBunch, Vocab, np and pd to
sequence.py.  It is a plain function object, so it carries the standard
function attributes and in particular no attribute `vector`. -/
def fastaiLayersEmbedding : PyObject :=
  { attrs := ["__call__", "__name__", "__doc__", "__module__", "__dict__"] }

/-- The binding of the module-level name `embedding` as seen from inside
sequence.py: the file itself never assigns, defines or plainly imports that
name, but its wildcard fastai imports bind it to the fastai.layers.embedding
function. -/
def moduleEmbeddingBinding : Option PyObject := some fastaiLayersEmbedding

/-- Dna2VecProcessor.process_one (sequence.py lines 162-163): the body is
`return embedding.vector(item)`, naming the bare global `embedding` rather
than self.embedding.  Evaluation first resolves that name (NameError when no
binding exists), then looks the attribute `vector` up on the resolved object
(AttributeError when absent); only after both steps would a call happen and a
value be returned. -/
def Dna2VecProcessor.process_one (item : List Char) : Except PyExc Unit :=
  match moduleEmbeddingBinding with
  | none => Except.error (PyExc.nameError "embedding")
  | some o => pyGetAttr o "vector"

/-- C10, counterexample: on the concrete item A, process_one does not raise
the claimed NameError, because the wildcard fastai imports do bind the name
embedding. -/
theorem dna2vec_c10_counterexample :
    Dna2VecProcessor.process_one ['A'] ≠ Except.error (PyExc.nameError "embedding") := by
  have h1 : Dna2VecProcessor.process_one ['A'] =
      Except.error (PyExc.attributeError "vector") := by
    show pyGetAttr fastaiLayersEmbedding "vector" = _
    unfold pyGetAttr
    rw [if_neg (by decide)]
  rw [h1]
  intro h2
  simp at h2

/-- C10 (amended): per-item embedding through process_one always fails and
never returns a value, but with an AttributeError rather than the claimed
NameError: the bare name `embedding` resolves to the fastai.layers.embedding
function brought in by the wildcard fastai imports, and that function object
has no attribute `vector`.  Batch embedding through Dna2VecProcessor.process
does not use process_one: it reads self.embedding (the embed parameter) and
yields one result per item. -/
theorem dna2vec_process_one_attribute_error :
    (∀ item : List Char,
        Dna2VecProcessor.process_one item =
          Except.error (PyExc.attributeError "vector")) ∧
    (∀ (embed : List Char → List ℚ) (agg : Option (List (List ℚ) → List ℚ))
        (items : List (List (List Char))),
        (Dna2VecProcessor.process embed agg items).length = items.length) := by
  constructor
  · intro item
    show pyGetAttr fastaiLayersEmbedding "vector" = Except.error (PyExc.attributeError "vector")
    unfold pyGetAttr
    rw [if_neg (by decide)]
  · intro embed agg items
    simp [Dna2VecProcessor.process]

end FastaiGenomic
